import Mathlib

/-!
Verification of the quarter-compare pipeline (Go sources: types.go, report.go,
main.go) against its natural-language specification.

Modelling conventions:
* Go strings are modelled as lists of characters (GoStr).
* Go float64 values are modelled as GoFloat := Option ℚ, where none models NaN
  and some q models a finite value.  The pipeline never produces infinities on
  the paths studied here (pctOrNaN explicitly guards the division), so the
  finite-or-NaN model is adequate.
* Decoded JSON trees (Go's map[string]interface{} obtained from encoding/json)
  are modelled by the inductive JValue; an object is an association list of
  key/value pairs, looked up by first match (Go map keys are unique).
-/

/-! ### Definitions -/

/-- Model of a Go string as a list of characters. -/
abbrev GoStr := List Char

/-- Shorthand turning a Lean string literal into a GoStr. -/
def gs (s : String) : GoStr := s.data

/-- Model of a Go float64: none is NaN, some q is a finite value. -/
abbrev GoFloat := Option ℚ

/-- The display sentinel "not declared" used throughout types.go. -/
def notDecl : GoStr := gs "not declared"

/-- Model of pctOrNaN (report.go): NaN if either input is NaN, NaN if the
previous value is zero, otherwise (curr - prev) / |prev| * 100. -/
def pctOrNaN (curr prev : GoFloat) : GoFloat :=
  match curr, prev with
  | some c, some p => if p = 0 then none else some ((c - p) / |p| * 100)
  | _, _ => none

/-- Model of avgFloats (report.go): average of the non-NaN entries, NaN when
every entry is NaN. -/
def avgFloats (vals : List GoFloat) : GoFloat :=
  let valid := vals.filterMap id
  if valid.length = 0 then none else some (valid.foldl (· + ·) 0 / valid.length)

/-- The decimal digit character for d (d ≥ 9 clamps to '9'; all call sites
pass d < 10). -/
def digitChar : ℕ → Char
  | 0 => '0'
  | 1 => '1'
  | 2 => '2'
  | 3 => '3'
  | 4 => '4'
  | 5 => '5'
  | 6 => '6'
  | 7 => '7'
  | 8 => '8'
  | _ + 9 => '9'

/-- Numeric value of a decimal digit character. -/
def digitVal (c : Char) : ℕ := c.toNat - 48

/-- Whether a character is a decimal digit. -/
def isDigitChar (c : Char) : Bool := decide ('0' ≤ c) && decide (c ≤ '9')

/-- Whitespace test used by the model of strings.TrimSpace / bytes.TrimSpace. -/
def isSpaceChar (c : Char) : Bool := c == ' ' || c == '\t' || c == '\n' || c == '\r'

/-- Value of a big-endian list of digit characters. -/
def digitsVal (cs : GoStr) : ℕ := cs.foldl (fun a c => 10 * a + digitVal c) 0

/-- Big-endian decimal digit characters of n (n = 0 gives []); the first
argument is structural fuel, always called with fuel ≥ n. -/
def natCharsCore : ℕ → ℕ → GoStr
  | _, 0 => []
  | 0, _ + 1 => []
  | fuel + 1, n + 1 => natCharsCore fuel ((n + 1) / 10) ++ [digitChar ((n + 1) % 10)]

/-- Decimal rendering of a natural number, as Go's strconv prints integers. -/
def natChars (n : ℕ) : GoStr := if n = 0 then ['0'] else natCharsCore n n

/-- Fractional part of the 2-decimal rendering of a value with hundredths fr,
after Go's TrimRight(s, "0") and TrimRight(s, ".") have been applied. -/
def fracChars (fr : ℕ) : GoStr :=
  if fr = 0 then []
  else if fr % 10 = 0 then ['.', digitChar (fr / 10)]
  else ['.', digitChar (fr / 10), digitChar (fr % 10)]

/-- Rendering of the rational z / 100 with up to two decimals, trailing zeros
and a trailing decimal point trimmed. -/
def renderCenti (z : ℤ) : GoStr :=
  (if z < 0 then ['-'] else []) ++ natChars (z.natAbs / 100) ++ fracChars (z.natAbs % 100)

/-- Model of formatFloat (types.go): strconv.FormatFloat(f, 'f', 2, 64)
followed by trimming trailing zeros and a trailing decimal point.  In this
rational model of float64 the 2-decimal formatting is round-to-nearest
(exact decimal ties are impossible for binary float64 inputs, so the tie
rule is irrelevant). -/
def formatFloat (f : ℚ) : GoStr := renderCenti (round (100 * f))

/-- Predicate for scanning up to the decimal point. -/
def notDot (c : Char) : Bool := c != '.'

/-- Parse an unsigned decimal string (digits, optionally one dot and digits),
the shape accepted by strconv.ParseFloat for the strings this program feeds
it.  Models the stdlib parser on plain decimal notation. -/
def parseUnsignedDec (cs : GoStr) : Option ℚ :=
  let ip := cs.takeWhile notDot
  let rest := cs.dropWhile notDot
  if ip.all isDigitChar then
    match rest with
    | [] => if ip.isEmpty then none else some ((digitsVal ip : ℚ))
    | _ :: fp =>
        if fp.all isDigitChar && !(ip.isEmpty && fp.isEmpty) then
          some ((digitsVal ip : ℚ) + (digitsVal fp : ℚ) / (10 : ℚ) ^ fp.length)
        else none
  else none

/-- Model of strconv.ParseFloat on decimal notation, with optional sign;
none models a parse error. -/
def parseGoFloat (cs : GoStr) : Option ℚ :=
  match cs with
  | [] => none
  | c :: rest =>
      if c = '-' then (parseUnsignedDec rest).map (fun q => -q)
      else if c = '+' then parseUnsignedDec rest
      else parseUnsignedDec cs

/-- Model of strings.TrimSpace restricted to ASCII whitespace. -/
def trimSpace (s : GoStr) : GoStr :=
  ((s.dropWhile isSpaceChar).reverse.dropWhile isSpaceChar).reverse

/-- Model of strings.EqualFold restricted to ASCII case folding. -/
def equalFold (s t : GoStr) : Bool := s.map Char.toLower == t.map Char.toLower

/-- Model of quarterValueToFloat64 (types.go): trim space, map "" and
"not declared" (case-insensitively) to NaN, strip commas, parse as float,
NaN when unparseable. -/
def quarterValueToFloat64 (q : GoStr) : GoFloat :=
  let s := trimSpace q
  if s.isEmpty || equalFold s notDecl then none
  else parseGoFloat (s.filter (fun c => c != ','))

/-- Model of a decoded Go JSON value (interface{} produced by encoding/json):
nil, bool, float64, string, []interface braces, map[string]interface{}. -/
inductive JValue where
  | null
  | bool (b : Bool)
  | num (x : ℚ)
  | str (s : GoStr)
  | arr (xs : List JValue)
  | obj (fields : List (GoStr × JValue))

/-- A decoded JSON object: association list with unique keys, first match
wins on lookup (Go map semantics for read access). -/
abbrev JObj := List (GoStr × JValue)

/-- Model of the type assertion v.(map[string]interface braces). -/
def asObj : JValue → Option JObj
  | .obj fs => some fs
  | _ => none

/-- Model of the type assertion v.(string). -/
def asStr : JValue → Option GoStr
  | .str s => some s
  | _ => none

/-- Model of a Go map read m[k]. -/
def goLookup (m : JObj) (k : GoStr) : Option JValue :=
  (m.find? (fun kv => kv.1 == k)).map (fun kv => kv.2)

/-- Whether a character survives normalization: lowercase letter or digit. -/
def isLowerAlnum (c : Char) : Bool :=
  (decide ('a' ≤ c) && decide (c ≤ 'z')) || (decide ('0' ≤ c) && decide (c ≤ '9'))

/-- Model of the normalize closure in types.go: lower-case then strip every
character outside [a-z0-9]. -/
def normalizeKey (s : GoStr) : GoStr := (s.map Char.toLower).filter isLowerAlnum

/-- Whether the second list is a prefix of the first. -/
def hasPrefixStr : GoStr → GoStr → Bool
  | _, [] => true
  | [], _ :: _ => false
  | c :: cs, d :: ds => c == d && hasPrefixStr cs ds

/-- Model of strings.Contains: the needle occurs as a contiguous substring
of the haystack. -/
def containsStr : GoStr → GoStr → Bool
  | [], needle => hasPrefixStr [] needle
  | c :: t, needle => hasPrefixStr (c :: t) needle || containsStr t needle

/-- The per-key match test of chooseBestDump: normalized equality or
containment in either direction. -/
def normMatch (t nmk : GoStr) : Bool :=
  t == nmk || containsStr nmk t || containsStr t nmk

/-- The score chooseBestDump computes for one candidate group: the number of
the group's keys whose normalization matches some normalized target (each
key counted at most once via the inner break). -/
def dumpScore (m : JObj) (targets : List GoStr) : ℕ :=
  m.countP (fun kv => targets.any (fun t => normMatch t (normalizeKey kv.1)))

/-- One step of chooseBestDump's candidate loop: skip non-object entries,
keep the candidate only on a strictly larger score. -/
def cbStep (targets : List GoStr) (acc : ℤ × Option JObj) (kv : GoStr × JValue) :
    ℤ × Option JObj :=
  match asObj kv.2 with
  | none => acc
  | some m =>
      if (dumpScore m targets : ℤ) > acc.1 then ((dumpScore m targets : ℤ), some m) else acc

/-- Model of chooseBestDump (types.go): iterate the candidates under
quarterlyDataDump with bestScore starting at -1, return the best-scoring
object-valued candidate (first seen wins ties), or none when no candidate
was object-valued. -/
def chooseBestDump (qd : JObj) (qOrder : List GoStr) : Option JObj :=
  (qd.foldl (cbStep (qOrder.map normalizeKey)) (-1, none)).2

/-- Model of the findQuarterKey closure (types.go): normalized exact match
first, then containment either way; "" (empty string) is the not-found
sentinel. -/
def findQuarterKey (d : JObj) (q : GoStr) : GoStr :=
  match d.find? (fun kv => normalizeKey q == normalizeKey kv.1) with
  | some kv => kv.1
  | none =>
      match d.find? (fun kv =>
          containsStr (normalizeKey kv.1) (normalizeKey q) ||
          containsStr (normalizeKey q) (normalizeKey kv.1)) with
      | some kv => kv.1
      | none => []

mutual
/-- Modelled from encoding/json: json.Marshal of a decoded value, used by the
default branch of valueFromMap.  Number rendering is approximated by the
2-decimal renderer; the proofs rely only on the output being non-empty and
starting with the token of the value kind. -/
def jsonMarshal : JValue → GoStr
  | .null => gs "null"
  | .bool true => gs "true"
  | .bool false => gs "false"
  | .num x => renderCenti (round (100 * x))
  | .str s => '\"' :: (s ++ ['\"'])
  | .arr xs => '[' :: (marshalList xs ++ [']'])
  | .obj fs => '\x7b' :: (marshalFields fs ++ ['\x7d'])

/-- Comma-separated serialization of an array's elements. -/
def marshalList : List JValue → GoStr
  | [] => []
  | [v] => jsonMarshal v
  | v :: t => jsonMarshal v ++ ',' :: marshalList t

/-- Comma-separated serialization of an object's fields. -/
def marshalFields : List (GoStr × JValue) → GoStr
  | [] => []
  | [(k, v)] => '\"' :: (k ++ '\"' :: ':' :: jsonMarshal v)
  | (k, v) :: t => ('\"' :: (k ++ '\"' :: ':' :: jsonMarshal v)) ++ ',' :: marshalFields t
end

/-- The switch body of valueFromMap (types.go) for one present value: none
means "try the next key" (the Go continue), some out is the produced display
value.  nil values are filtered before this point by the v != nil test, so
null maps to none; numbers are formatted; numeric strings are re-formatted;
the empty string falls through; other strings are returned verbatim; any
other value is serialized with json.Marshal (falling through only if that
yields no bytes). -/
def valueFromValue : JValue → Option GoStr
  | .null => none
  | .num f => some (formatFloat f)
  | .str s =>
      match parseGoFloat s with
      | some f => some (formatFloat f)
      | none => if s.isEmpty then none else some s
  | v =>
      let b := jsonMarshal v
      if b.isEmpty then none else some b

/-- Model of valueFromMap (types.go): try the keys in order; the first
present, non-nil value that the switch turns into a display value wins; when
nothing usable is found return the "not declared" sentinel. -/
def valueFromMap (m : JObj) : List GoStr → GoStr
  | [] => notDecl
  | k :: rest =>
      match goLookup m k with
      | none => valueFromMap m rest
      | some v =>
          match valueFromValue v with
          | some out => out
          | none => valueFromMap m rest

/-- The claim's notion of a usable value: present (checked by the caller),
non-nil, and not the empty string. -/
def usableB : JValue → Bool
  | .null => false
  | .str s => !s.isEmpty
  | _ => true

/-- The first usable value among the candidate keys, following the claim's
words: keys in priority order, first present, non-null, non-empty value. -/
def firstUsable (m : JObj) (keys : List GoStr) : Option JValue :=
  keys.findSome? (fun k =>
    match goLookup m k with
    | some v => if usableB v then some v else none
    | none => none)

/-- The claim's notion of chooseBestDump's score, following the spec words:
the count of expected periods that have a normalized match among the group's
keys.  Defined only to compare against dumpScore, which the code computes. -/
def specPeriodScore (ord : List GoStr) (m : JObj) : ℕ :=
  (ord.map normalizeKey).countP (fun t => m.any (fun kv => normMatch t (normalizeKey kv.1)))

/-- Model of the CompanyResult record (types.go). -/
structure CompanyResult where
  Company : GoStr
  LongName : GoStr
  Quarters : List GoStr
  Revenue : List GoStr
  NetProfit : List GoStr
  RevenueNums : List GoFloat
  NetProfitNums : List GoFloat

/-- Key constant "body". -/
def kBody : GoStr := gs "body"

/-- Key constant "quarterlyOrder". -/
def kQuarterlyOrder : GoStr := gs "quarterlyOrder"

/-- Key constant "quarterlyDataDump". -/
def kQuarterlyDataDump : GoStr := gs "quarterlyDataDump"

/-- Key constant "TOTAL_SR_Q" (primary revenue key). -/
def kTotalSRQ : GoStr := gs "TOTAL_SR_Q"

/-- Key constant "SR_Q" (fallback revenue key). -/
def kSRQ : GoStr := gs "SR_Q"

/-- Key constant "NP_Q" (net profit key). -/
def kNPQ : GoStr := gs "NP_Q"

/-- The body sub-object of the decoded fundamentals JSON; a missing or
non-object body behaves like an empty map for the reads that follow (reading
from a nil Go map yields zero values). -/
def bodyOf (root : JObj) : JObj := ((goLookup root kBody).bind asObj).getD []

/-- The declared period sequence: the string entries of body.quarterlyOrder. -/
def quarterlyOrderOf (root : JObj) : List GoStr :=
  match goLookup (bodyOf root) kQuarterlyOrder with
  | some (.arr xs) => xs.filterMap asStr
  | _ => []

/-- The selected metric group: chooseBestDump over body.quarterlyDataDump
when that is an object, none otherwise. -/
def dumpOf (root : JObj) : Option JObj :=
  match (goLookup (bodyOf root) kQuarterlyDataDump).bind asObj with
  | some qd => chooseBestDump qd (quarterlyOrderOf root)
  | none => none

/-- The loop body of ParseCompanyFundamentals for one declared quarter q with
a selected dump: try the direct key, then the fuzzy key, extracting revenue
(TOTAL_SR_Q then SR_Q) and net profit (NP_Q); otherwise both slots are
"not declared". -/
def resolveQuarter (dump : JObj) (q : GoStr) : GoStr × GoStr :=
  match (goLookup dump q).bind asObj with
  | some qmap => (valueFromMap qmap [kTotalSRQ, kSRQ], valueFromMap qmap [kNPQ])
  | none =>
      match findQuarterKey dump q with
      | [] => (notDecl, notDecl)
      | alt =>
          match (goLookup dump alt).bind asObj with
          | some qmap => (valueFromMap qmap [kTotalSRQ, kSRQ], valueFromMap qmap [kNPQ])
          | none => (notDecl, notDecl)

/-- The per-quarter (revenue, net profit) pairs for the first up to 4 declared
quarters (the loop of ParseCompanyFundamentals, one append per iteration). -/
def resolvedPairs (root : JObj) : List (GoStr × GoStr) :=
  ((quarterlyOrderOf root).take 4).map (fun q =>
    match dumpOf root with
    | some dump => resolveQuarter dump q
    | none => (notDecl, notDecl))

/-- Number of sentinel entries the padding loop appends to reach 4 slots. -/
def padCount (root : JObj) : ℕ := 4 - ((quarterlyOrderOf root).take 4).length

/-- Model of ParseCompanyFundamentals (types.go).  The result of
json.Unmarshal into map[string]interface braces is passed as root?: none
models an unmarshal error (the function then returns the zero-value record
early, with nil slices); some root models a decoded object (JSON null also
decodes into a nil map without error, modelled by the empty object). -/
def ParseCompanyFundamentals (shortName : GoStr) (root? : Option JObj) : CompanyResult :=
  match root? with
  | none =>
      { Company := shortName, LongName := [], Quarters := [], Revenue := [],
        NetProfit := [], RevenueNums := [], NetProfitNums := [] }
  | some root =>
      { Company := shortName
        LongName := []
        Quarters := (quarterlyOrderOf root).take 4 ++ List.replicate (padCount root) []
        Revenue := (resolvedPairs root).map Prod.fst ++
          List.replicate (padCount root) notDecl
        NetProfit := (resolvedPairs root).map Prod.snd ++
          List.replicate (padCount root) notDecl
        RevenueNums := ((resolvedPairs root).map Prod.fst ++
          List.replicate (padCount root) notDecl).map quarterValueToFloat64
        NetProfitNums := ((resolvedPairs root).map Prod.snd ++
          List.replicate (padCount root) notDecl).map quarterValueToFloat64 }

/-- Model of the body handling of FetchFundamentalsJSON (types.go) once the
transport has succeeded (network errors are out of scope here): trim the
body; fail only when the trimmed body is empty; a body that does not start
with a JSON object/array token is logged as a data-quality signal but still
returned for extraction. -/
def FetchFundamentalsJSON (b : GoStr) : Except GoStr GoStr :=
  if (trimSpace b).isEmpty then Except.error (gs "empty fundamentals response")
  else Except.ok (trimSpace b)

/-- The derived per-row statistics of GenerateHTMLReport (report.go). -/
structure RowStats where
  revPct : GoFloat
  npPct : GoFloat
  avg3RevPct : GoFloat
  avg3NPPct : GoFloat

/-- Model of the per-row statistics block of GenerateHTMLReport (report.go):
latest and previous observations guarded by length checks (NaN when absent),
Last-2 percent change via pctOrNaN, and the average-of-3 comparison of
nums[0:3] against nums[1:4], each computed only when enough slots exist. -/
def rowStats (r : CompanyResult) : RowStats :=
  let latestRev := (r.RevenueNums[0]?).getD none
  let prevRev := (r.RevenueNums[1]?).getD none
  let latestNP := (r.NetProfitNums[0]?).getD none
  let prevNP := (r.NetProfitNums[1]?).getD none
  let avg3Rev := if 3 ≤ r.RevenueNums.length then avgFloats (r.RevenueNums.take 3) else none
  let avgPrev3Rev :=
    if 4 ≤ r.RevenueNums.length then avgFloats ((r.RevenueNums.drop 1).take 3) else none
  let avg3NP := if 3 ≤ r.NetProfitNums.length then avgFloats (r.NetProfitNums.take 3) else none
  let avgPrev3NP :=
    if 4 ≤ r.NetProfitNums.length then avgFloats ((r.NetProfitNums.drop 1).take 3) else none
  { revPct := pctOrNaN latestRev prevRev
    npPct := pctOrNaN latestNP prevNP
    avg3RevPct := pctOrNaN avg3Rev avgPrev3Rev
    avg3NPPct := pctOrNaN avg3NP avgPrev3NP }

/-- The ACME scenario document: periods Q1..Q4 declared, one consolidated
group with revenue data only for Q1 and Q2. -/
def acmeRootWith (v1 v2 : ℚ) : JObj :=
  [(kBody, .obj [
    (kQuarterlyOrder, .arr [.str (gs "Q1"), .str (gs "Q2"), .str (gs "Q3"), .str (gs "Q4")]),
    (kQuarterlyDataDump, .obj [
      (gs "consolidated", .obj [
        (gs "Q1", .obj [(kTotalSRQ, .num v1)]),
        (gs "Q2", .obj [(kTotalSRQ, .num v2)])])])])]

/-- One task's predetermined outcome: the error that aborts the entity's
resolution, or the resolved record.  main.go treats outcomes opaquely: an
error is logged and skipped, a success is collected. -/
abbrev TaskOutcome := Except GoStr CompanyResult

/-- State of the bounded worker pool of main.go: tasks not yet admitted by
the counting semaphore, tasks currently holding a slot, and outcomes already
sent to the results channel (buffered to the batch size, so sends never
block). -/
structure PoolState where
  pending : List TaskOutcome
  running : List TaskOutcome
  collected : List TaskOutcome

/-- Transitions of the pool: the main loop admits the next task when a
semaphore slot is free, and any running task may finish and report its
outcome independently of the others (completion order is arbitrary). -/
inductive PoolStep (limit : ℕ) : PoolState → PoolState → Prop
  | acquire (t : TaskOutcome) (rest running collected : List TaskOutcome)
      (h : running.length < limit) :
      PoolStep limit ⟨t :: rest, running, collected⟩ ⟨rest, t :: running, collected⟩
  | finish (pending r₁ r₂ collected : List TaskOutcome) (t : TaskOutcome) :
      PoolStep limit ⟨pending, r₁ ++ t :: r₂, collected⟩
        ⟨pending, r₁ ++ r₂, t :: collected⟩

/-- A state is final when every task has been dispatched and has reported
(the WaitGroup barrier has released and the channel is drained). -/
def PoolFinal (s : PoolState) : Prop := s.pending = [] ∧ s.running = []

/-- The gather loop of main.go: failed outcomes are skipped, successful
records are kept. -/
def gatherResults (outcomes : List TaskOutcome) : List CompanyResult :=
  outcomes.filterMap (fun t => t.toOption)

/-- Number of failing tasks in a batch. -/
def errCount (tasks : List TaskOutcome) : ℕ :=
  tasks.countP (fun t => t.toOption.isNone)

/-- Initial pool state: all tasks pending. -/
def initPool (tasks : List TaskOutcome) : PoolState := ⟨tasks, [], []⟩

/-- Termination measure for the pool. -/
def poolMeasure (s : PoolState) : ℕ := 2 * s.pending.length + s.running.length

/-- A trivial resolved record used to instantiate the pool witness. -/
def sampleResult : CompanyResult :=
  { Company := [], LongName := [], Quarters := [], Revenue := [],
    NetProfit := [], RevenueNums := [], NetProfitNums := [] }

/-! ### Theorems -/

/-- C8: pctOrNaN returns NaN if either input is NaN, NaN (not infinity) when
the previous value is 0, and otherwise (curr - prev) / |prev| * 100; in
particular pctOrNaN 110 100 = 10 and pctOrNaN 90 100 = -10. -/
theorem pctOrNaN_spec :
    ∀ c p : GoFloat,
      pctOrNaN none p = none ∧
      pctOrNaN c none = none ∧
      pctOrNaN c (some 0) = none ∧
      (∀ a b : ℚ, b ≠ 0 → pctOrNaN (some a) (some b) = some ((a - b) / |b| * 100)) ∧
      pctOrNaN (some 110) (some 100) = some 10 ∧
      pctOrNaN (some 90) (some 100) = some (-10) := by
  intro c p
  refine ⟨?_, ?_, ?_, ?_, by norm_num [pctOrNaN], by norm_num [pctOrNaN]⟩
  · cases p <;> rfl
  · cases c <;> rfl
  · cases c with
    | none => rfl
    | some a => simp [pctOrNaN]
  · intro a b hb
    simp [pctOrNaN, hb]

/-- Witness for C8 at concrete inputs. -/
theorem pctOrNaN_spec_witness :
    pctOrNaN (some 1) (some 2) = some ((1 - 2) / |(2 : ℚ)| * 100) :=
  (pctOrNaN_spec none none).2.2.2.1 1 2 (by norm_num)

theorem digitChar_mem (d : ℕ) :
    digitChar d ∈ (['0', '1', '2', '3', '4', '5', '6', '7', '8', '9'] : List Char) := by
  rcases d with _|_|_|_|_|_|_|_|_|d <;> simp [digitChar]

theorem digit_list_spec (c : Char)
    (h : c ∈ (['0', '1', '2', '3', '4', '5', '6', '7', '8', '9'] : List Char)) :
    isDigitChar c = true ∧ c ≠ '.' ∧ c ≠ ',' ∧ c ≠ '-' ∧ c ≠ '+' ∧
    isSpaceChar c = false ∧ Char.toLower c = c ∧ c ≠ 'n' := by
  fin_cases h <;> exact (by decide)

theorem digitChar_spec (d : ℕ) :
    isDigitChar (digitChar d) = true ∧ digitChar d ≠ '.' ∧ digitChar d ≠ ',' ∧
    digitChar d ≠ '-' ∧ digitChar d ≠ '+' ∧ isSpaceChar (digitChar d) = false ∧
    Char.toLower (digitChar d) = digitChar d ∧ digitChar d ≠ 'n' :=
  digit_list_spec _ (digitChar_mem d)

theorem digitVal_digitChar {d : ℕ} (h : d < 10) : digitVal (digitChar d) = d := by
  rcases d with _|_|_|_|_|_|_|_|_|d
  · decide
  · decide
  · decide
  · decide
  · decide
  · decide
  · decide
  · decide
  · decide
  · have hd : d = 0 := by omega
    subst hd
    decide

theorem takeWhile_eq_self_of {α : Type} {p : α → Bool} :
    ∀ {l : List α}, (∀ c ∈ l, p c = true) → l.takeWhile p = l := by
  intro l
  induction l with
  | nil => intro _; rfl
  | cons a t ih =>
      intro h
      rw [List.takeWhile_cons, if_pos (h a (List.mem_cons_self a t)),
        ih (fun c hc => h c (List.mem_cons_of_mem a hc))]

theorem dropWhile_eq_nil_of {α : Type} {p : α → Bool} :
    ∀ {l : List α}, (∀ c ∈ l, p c = true) → l.dropWhile p = [] := by
  intro l
  induction l with
  | nil => intro _; rfl
  | cons a t ih =>
      intro h
      rw [List.dropWhile_cons, if_pos (h a (List.mem_cons_self a t))]
      exact ih (fun c hc => h c (List.mem_cons_of_mem a hc))

theorem dropWhile_eq_self_of {α : Type} {p : α → Bool} {l : List α}
    (h : ∀ c ∈ l, p c = false) : l.dropWhile p = l := by
  cases l with
  | nil => rfl
  | cons a t =>
      rw [List.dropWhile_cons, if_neg (by simp [h a (List.mem_cons_self a t)])]

theorem takeWhile_append_stop {α : Type} {p : α → Bool} {d : α} {l₂ : List α}
    (hd : p d = false) :
    ∀ {l₁ : List α}, (∀ c ∈ l₁, p c = true) → (l₁ ++ d :: l₂).takeWhile p = l₁ := by
  intro l₁
  induction l₁ with
  | nil =>
      intro _
      rw [List.nil_append, List.takeWhile_cons, if_neg (by simp [hd])]
  | cons a t ih =>
      intro h
      rw [List.cons_append, List.takeWhile_cons, if_pos (h a (List.mem_cons_self a t)),
        ih (fun c hc => h c (List.mem_cons_of_mem a hc))]

theorem dropWhile_append_stop {α : Type} {p : α → Bool} {d : α} {l₂ : List α}
    (hd : p d = false) :
    ∀ {l₁ : List α}, (∀ c ∈ l₁, p c = true) → (l₁ ++ d :: l₂).dropWhile p = d :: l₂ := by
  intro l₁
  induction l₁ with
  | nil =>
      intro _
      rw [List.nil_append, List.dropWhile_cons, if_neg (by simp [hd])]
  | cons a t ih =>
      intro h
      rw [List.cons_append, List.dropWhile_cons, if_pos (h a (List.mem_cons_self a t))]
      exact ih (fun c hc => h c (List.mem_cons_of_mem a hc))

theorem filter_eq_self_of {α : Type} {p : α → Bool} :
    ∀ {l : List α}, (∀ c ∈ l, p c = true) → l.filter p = l := by
  intro l
  induction l with
  | nil => intro _; rfl
  | cons a t ih =>
      intro h
      rw [List.filter_cons, if_pos (h a (List.mem_cons_self a t)),
        ih (fun c hc => h c (List.mem_cons_of_mem a hc))]

theorem natCharsCore_spec :
    ∀ fuel n, n ≤ fuel →
      digitsVal (natCharsCore fuel n) = n ∧
      (n ≠ 0 → natCharsCore fuel n ≠ []) ∧
      (∀ c ∈ natCharsCore fuel n, ∃ d, d < 10 ∧ c = digitChar d) := by
  intro fuel
  induction fuel with
  | zero =>
      intro n hn
      have : n = 0 := by omega
      subst this
      exact ⟨rfl, fun h => absurd rfl h, by simp [natCharsCore]⟩
  | succ f ih =>
      intro n hn
      cases n with
      | zero => exact ⟨rfl, fun h => absurd rfl h, by simp [natCharsCore]⟩
      | succ m =>
          have hrec : (m + 1) / 10 ≤ f := by
            have := Nat.div_lt_self (Nat.succ_pos m) (by norm_num : 1 < 10)
            omega
          obtain ⟨hval, _, hchars⟩ := ih ((m + 1) / 10) hrec
          have hmod : (m + 1) % 10 < 10 := Nat.mod_lt _ (by norm_num)
          refine ⟨?_, ?_, ?_⟩
          · show digitsVal (natCharsCore f ((m + 1) / 10) ++ [digitChar ((m + 1) % 10)]) = m + 1
            unfold digitsVal
            rw [List.foldl_append]
            show 10 * digitsVal (natCharsCore f ((m + 1) / 10)) + digitVal (digitChar ((m + 1) % 10)) = m + 1
            rw [hval, digitVal_digitChar hmod]
            omega
          · intro _
            show natCharsCore f ((m + 1) / 10) ++ [digitChar ((m + 1) % 10)] ≠ []
            simp
          · intro c hc
            show ∃ d, d < 10 ∧ c = digitChar d
            rcases List.mem_append.mp hc with h | h
            · exact hchars c h
            · exact ⟨(m + 1) % 10, hmod, by simpa using h⟩

theorem natChars_spec (n : ℕ) :
    digitsVal (natChars n) = n ∧ natChars n ≠ [] ∧
    (∀ c ∈ natChars n, ∃ d, d < 10 ∧ c = digitChar d) := by
  unfold natChars
  by_cases h : n = 0
  · subst h
    refine ⟨by decide, by decide, ?_⟩
    intro c hc
    simp at hc
    exact ⟨0, by norm_num, by simp [hc]; rfl⟩
  · simp only [h, if_false]
    obtain ⟨hval, hne, hchars⟩ := natCharsCore_spec n n le_rfl
    exact ⟨hval, hne h, hchars⟩

theorem fracChars_cases {fr : ℕ} (hfr : fr < 100) :
    fracChars fr = [] ∨
    (∃ cs, fracChars fr = '.' :: cs ∧ cs ≠ [] ∧
      ∀ c ∈ cs, ∃ d, d < 10 ∧ c = digitChar d) := by
  have hdiv : fr / 10 < 10 := Nat.div_lt_of_lt_mul (by omega)
  have hm : fr % 10 < 10 := Nat.mod_lt _ (by norm_num)
  unfold fracChars
  by_cases h0 : fr = 0
  · simp [h0]
  · by_cases h10 : fr % 10 = 0
    · right
      refine ⟨[digitChar (fr / 10)], by simp [h0, h10], by simp, ?_⟩
      intro c hc
      simp at hc
      exact ⟨fr / 10, hdiv, by rw [hc]⟩
    · right
      refine ⟨[digitChar (fr / 10), digitChar (fr % 10)], by simp [h0, h10], by simp, ?_⟩
      intro c hc
      simp at hc
      rcases hc with hc | hc
      · exact ⟨fr / 10, hdiv, by rw [hc]⟩
      · exact ⟨fr % 10, hm, by rw [hc]⟩

theorem natChars_notDot {n : ℕ} : ∀ c ∈ natChars n, notDot c = true := by
  intro c hc
  obtain ⟨d, _, rfl⟩ := (natChars_spec n).2.2 c hc
  simp [notDot, (digitChar_spec d).2.1]

theorem natChars_all_digit {n : ℕ} : (natChars n).all isDigitChar = true := by
  rw [List.all_eq_true]
  intro c hc
  obtain ⟨d, _, rfl⟩ := (natChars_spec n).2.2 c hc
  exact (digitChar_spec d).1

theorem natChars_isEmpty_false (n : ℕ) : (natChars n).isEmpty = false := by
  have h := (natChars_spec n).2.1
  cases hn : natChars n with
  | nil => exact absurd hn h
  | cons a t => rfl

theorem digitsVal_singleton (c : Char) : digitsVal [c] = digitVal c := by
  simp [digitsVal, List.foldl]

theorem digitsVal_pair (c₁ c₂ : Char) : digitsVal [c₁, c₂] = 10 * digitVal c₁ + digitVal c₂ := by
  simp [digitsVal, List.foldl]

theorem parseUnsignedDec_render (n : ℕ) :
    parseUnsignedDec (natChars (n / 100) ++ fracChars (n % 100)) = some ((n : ℚ) / 100) := by
  have hfr : n % 100 < 100 := Nat.mod_lt _ (by norm_num)
  have hdm : 100 * (n / 100) + n % 100 = n := Nat.div_add_mod n 100
  have hdiv10 : n % 100 / 10 < 10 := Nat.div_lt_of_lt_mul (by omega)
  have hmod10 : n % 100 % 10 < 10 := Nat.mod_lt _ (by norm_num)
  by_cases h0 : n % 100 = 0
  · rw [show fracChars (n % 100) = [] by simp [fracChars, h0], List.append_nil]
    unfold parseUnsignedDec
    rw [takeWhile_eq_self_of natChars_notDot, dropWhile_eq_nil_of natChars_notDot,
      if_pos natChars_all_digit, if_neg (by simp [natChars_isEmpty_false]),
      (natChars_spec (n / 100)).1]
    have hn : (n : ℚ) = 100 * ((n / 100 : ℕ) : ℚ) := by exact_mod_cast by omega
    rw [hn, mul_div_cancel_left₀ _ (by norm_num : (100 : ℚ) ≠ 0)]
  · by_cases h10 : n % 100 % 10 = 0
    · rw [show fracChars (n % 100) = ['.', digitChar (n % 100 / 10)] by
        simp [fracChars, h0, h10]]
      unfold parseUnsignedDec
      rw [takeWhile_append_stop (by decide) natChars_notDot,
        dropWhile_append_stop (by decide) natChars_notDot,
        if_pos natChars_all_digit]
      have hall : (([digitChar (n % 100 / 10)] : GoStr).all isDigitChar &&
          !((natChars (n / 100)).isEmpty && ([digitChar (n % 100 / 10)] : GoStr).isEmpty)) = true := by
        simp [natChars_isEmpty_false, (digitChar_spec (n % 100 / 10)).1]
      show (if (([digitChar (n % 100 / 10)] : GoStr).all isDigitChar &&
          !((natChars (n / 100)).isEmpty && ([digitChar (n % 100 / 10)] : GoStr).isEmpty)) = true then
          some ((digitsVal (natChars (n / 100)) : ℚ) +
            (digitsVal ([digitChar (n % 100 / 10)] : GoStr) : ℚ) /
              (10 : ℚ) ^ ([digitChar (n % 100 / 10)] : GoStr).length)
        else none) = some ((n : ℚ) / 100)
      rw [if_pos hall, (natChars_spec (n / 100)).1, digitsVal_singleton,
        digitVal_digitChar hdiv10]
      congr 1
      have hq : (n : ℚ) = 100 * ((n / 100 : ℕ) : ℚ) + 10 * ((n % 100 / 10 : ℕ) : ℚ) := by
        exact_mod_cast by omega
      rw [hq]
      show ((n / 100 : ℕ) : ℚ) + ((n % 100 / 10 : ℕ) : ℚ) / (10 : ℚ) ^ (1 : ℕ) = _
      field_simp
      ring
    · rw [show fracChars (n % 100) = ['.', digitChar (n % 100 / 10), digitChar (n % 100 % 10)] by
        simp [fracChars, h0, h10]]
      unfold parseUnsignedDec
      rw [takeWhile_append_stop (by decide) natChars_notDot,
        dropWhile_append_stop (by decide) natChars_notDot,
        if_pos natChars_all_digit]
      have hall : (([digitChar (n % 100 / 10), digitChar (n % 100 % 10)] : GoStr).all isDigitChar &&
          !((natChars (n / 100)).isEmpty &&
            ([digitChar (n % 100 / 10), digitChar (n % 100 % 10)] : GoStr).isEmpty)) = true := by
        simp [natChars_isEmpty_false, (digitChar_spec (n % 100 / 10)).1,
          (digitChar_spec (n % 100 % 10)).1]
      show (if (([digitChar (n % 100 / 10), digitChar (n % 100 % 10)] : GoStr).all isDigitChar &&
          !((natChars (n / 100)).isEmpty &&
            ([digitChar (n % 100 / 10), digitChar (n % 100 % 10)] : GoStr).isEmpty)) = true then
          some ((digitsVal (natChars (n / 100)) : ℚ) +
            (digitsVal ([digitChar (n % 100 / 10), digitChar (n % 100 % 10)] : GoStr) : ℚ) /
              (10 : ℚ) ^ ([digitChar (n % 100 / 10), digitChar (n % 100 % 10)] : GoStr).length)
        else none) = some ((n : ℚ) / 100)
      rw [if_pos hall, (natChars_spec (n / 100)).1, digitsVal_pair,
        digitVal_digitChar hdiv10, digitVal_digitChar hmod10]
      congr 1
      have hq : (n : ℚ) = 100 * ((n / 100 : ℕ) : ℚ) +
          (10 * ((n % 100 / 10 : ℕ) : ℚ) + ((n % 100 % 10 : ℕ) : ℚ)) := by
        exact_mod_cast by omega
      rw [hq]
      show ((n / 100 : ℕ) : ℚ) +
          ((10 * (n % 100 / 10) + n % 100 % 10 : ℕ) : ℚ) / (10 : ℚ) ^ (2 : ℕ) = _
      push_cast
      field_simp
      ring

theorem natChars_head (n : ℕ) :
    ∃ c t, natChars n = c :: t ∧ ∃ d, c = digitChar d := by
  obtain ⟨_, hne, hchars⟩ := natChars_spec n
  cases hn : natChars n with
  | nil => exact absurd hn hne
  | cons c t =>
      obtain ⟨d, _, hd⟩ := hchars c (by rw [hn]; exact List.mem_cons_self c t)
      exact ⟨c, t, rfl, d, hd⟩

theorem renderCenti_head (z : ℤ) :
    ∃ c t, renderCenti z = c :: t ∧ (c = '-' ∨ ∃ d, c = digitChar d) := by
  unfold renderCenti
  by_cases hz : z < 0
  · rw [if_pos hz]
    exact ⟨'-', _, rfl, Or.inl rfl⟩
  · rw [if_neg hz, List.nil_append]
    obtain ⟨c, t, hct, d, hd⟩ := natChars_head (z.natAbs / 100)
    exact ⟨c, t ++ fracChars (z.natAbs % 100), by rw [hct]; rfl, Or.inr ⟨d, hd⟩⟩

theorem renderCenti_chars (z : ℤ) :
    ∀ c ∈ renderCenti z, c = '-' ∨ c = '.' ∨ ∃ d, c = digitChar d := by
  intro c hc
  unfold renderCenti at hc
  rcases List.mem_append.mp hc with h | h
  · rcases List.mem_append.mp h with h | h
    · by_cases hz : z < 0
      · rw [if_pos hz] at h
        simp at h
        exact Or.inl h
      · rw [if_neg hz] at h
        simp at h
    · obtain ⟨d, _, hd⟩ := (natChars_spec (z.natAbs / 100)).2.2 c h
      exact Or.inr (Or.inr ⟨d, hd⟩)
  · have hfr : z.natAbs % 100 < 100 := Nat.mod_lt _ (by norm_num)
    rcases fracChars_cases hfr with hfc | ⟨cs, hfc, _, hcschars⟩
    · rw [hfc] at h
      simp at h
    · rw [hfc] at h
      rcases List.mem_cons.mp h with h | h
      · exact Or.inr (Or.inl h)
      · obtain ⟨d, _, hd⟩ := hcschars c h
        exact Or.inr (Or.inr ⟨d, hd⟩)

theorem renderCenti_no_space (z : ℤ) : ∀ c ∈ renderCenti z, isSpaceChar c = false := by
  intro c hc
  rcases renderCenti_chars z c hc with rfl | rfl | ⟨d, rfl⟩
  · decide
  · decide
  · exact (digitChar_spec d).2.2.2.2.2.1

theorem trimSpace_renderCenti (z : ℤ) : trimSpace (renderCenti z) = renderCenti z := by
  unfold trimSpace
  rw [dropWhile_eq_self_of (renderCenti_no_space z),
    dropWhile_eq_self_of (fun c hc => renderCenti_no_space z c (List.mem_reverse.mp hc)),
    List.reverse_reverse]

theorem renderCenti_filter_comma (z : ℤ) :
    (renderCenti z).filter (fun c => c != ',') = renderCenti z := by
  apply filter_eq_self_of
  intro c hc
  rcases renderCenti_chars z c hc with rfl | rfl | ⟨d, rfl⟩
  · decide
  · decide
  · simp [(digitChar_spec d).2.2.1]

theorem equalFold_renderCenti_notDecl (z : ℤ) :
    equalFold (renderCenti z) notDecl = false := by
  obtain ⟨c, t, hct, hc⟩ := renderCenti_head z
  have hlc : Char.toLower c ≠ 'n' := by
    rcases hc with rfl | ⟨d, rfl⟩
    · decide
    · rw [(digitChar_spec d).2.2.2.2.2.2.1]
      exact (digitChar_spec d).2.2.2.2.2.2.2
  rw [hct]
  unfold equalFold
  rw [show notDecl = 'n' :: gs "ot declared" from rfl]
  apply beq_eq_false_iff_ne.mpr
  intro heq
  rw [List.map_cons, List.map_cons] at heq
  exact hlc (by
    have := (List.cons.injEq _ _ _ _).mp heq
    rw [this.1]
    decide)

theorem renderCenti_isEmpty_false (z : ℤ) : (renderCenti z).isEmpty = false := by
  obtain ⟨c, t, hct, _⟩ := renderCenti_head z
  rw [hct]
  rfl

theorem parseGoFloat_renderCenti (z : ℤ) :
    parseGoFloat (renderCenti z) = some ((z : ℚ) / 100) := by
  by_cases hz : z < 0
  · have hrender : renderCenti z =
        '-' :: (natChars (z.natAbs / 100) ++ fracChars (z.natAbs % 100)) := by
      unfold renderCenti
      rw [if_pos hz]
      rfl
    rw [hrender]
    show (if ('-' : Char) = '-' then
        (parseUnsignedDec (natChars (z.natAbs / 100) ++ fracChars (z.natAbs % 100))).map
          (fun q => -q)
      else if ('-' : Char) = '+' then
        parseUnsignedDec (natChars (z.natAbs / 100) ++ fracChars (z.natAbs % 100))
      else parseUnsignedDec ('-' :: (natChars (z.natAbs / 100) ++ fracChars (z.natAbs % 100)))) =
      some ((z : ℚ) / 100)
    rw [if_pos rfl, parseUnsignedDec_render, Option.map_some']
    congr 1
    have habs : ((z.natAbs : ℕ) : ℚ) = -(z : ℚ) := by
      rw [Int.cast_natAbs, abs_of_neg hz]
      push_cast
      ring
    rw [habs]
    ring
  · obtain ⟨c, t, hct, d, hd⟩ := natChars_head (z.natAbs / 100)
    have hsplit : renderCenti z = c :: (t ++ fracChars (z.natAbs % 100)) := by
      unfold renderCenti
      rw [if_neg hz, List.nil_append, hct]
      rfl
    rw [hsplit]
    show (if c = '-' then
        (parseUnsignedDec (t ++ fracChars (z.natAbs % 100))).map (fun q => -q)
      else if c = '+' then parseUnsignedDec (t ++ fracChars (z.natAbs % 100))
      else parseUnsignedDec (c :: (t ++ fracChars (z.natAbs % 100)))) = some ((z : ℚ) / 100)
    rw [if_neg (hd ▸ (digitChar_spec d).2.2.2.1), if_neg (hd ▸ (digitChar_spec d).2.2.2.2.1),
      show c :: (t ++ fracChars (z.natAbs % 100)) =
        natChars (z.natAbs / 100) ++ fracChars (z.natAbs % 100) by rw [hct]; rfl,
      parseUnsignedDec_render]
    congr 1
    have habs : ((z.natAbs : ℕ) : ℚ) = (z : ℚ) := by
      rw [Int.cast_natAbs, abs_of_nonneg (not_lt.mp hz)]
    rw [habs]

theorem quarterValue_renderCenti (z : ℤ) :
    quarterValueToFloat64 (renderCenti z) = some ((z : ℚ) / 100) := by
  unfold quarterValueToFloat64
  simp only [trimSpace_renderCenti, renderCenti_filter_comma,
    equalFold_renderCenti_notDecl, renderCenti_isEmpty_false, Bool.or_false]
  exact parseGoFloat_renderCenti z

/-- C9: formatFloat renders with up to 2 decimals, trimming trailing zeros and
a trailing decimal point (1500 renders as "1500" and 1500.5 as "1500.5"), and
parsing the rendered string back through quarterValueToFloat64 yields a value
within 0.01 of the input. -/
theorem formatFloat_round_trip :
    ∀ x : ℚ,
      (∃ y : ℚ, quarterValueToFloat64 (formatFloat x) = some y ∧ |y - x| ≤ 1 / 100) ∧
      formatFloat 1500 = gs "1500" ∧ formatFloat (1500 + 1 / 2) = gs "1500.5" := by
  intro x
  refine ⟨⟨((round (100 * x) : ℤ) : ℚ) / 100, ?_, ?_⟩, ?_, ?_⟩
  · show quarterValueToFloat64 (renderCenti (round (100 * x))) = _
    exact quarterValue_renderCenti _
  · have habs : |((round (100 * x) : ℤ) : ℚ) - 100 * x| ≤ 1 / 2 := by
      rw [abs_sub_comm]
      exact abs_sub_round (100 * x)
    have hdiff : ((round (100 * x) : ℤ) : ℚ) / 100 - x =
        (((round (100 * x) : ℤ) : ℚ) - 100 * x) / 100 := by ring
    rw [hdiff, abs_div, abs_of_pos (by norm_num : (0 : ℚ) < 100)]
    linarith
  · show renderCenti (round ((100 : ℚ) * 1500)) = gs "1500"
    have h : (100 : ℚ) * 1500 = ((150000 : ℤ) : ℚ) := by norm_num
    rw [h, round_intCast]
    decide
  · show renderCenti (round ((100 : ℚ) * (1500 + 1 / 2))) = gs "1500.5"
    have h : (100 : ℚ) * (1500 + 1 / 2) = ((150050 : ℤ) : ℚ) := by norm_num
    rw [h, round_intCast]
    decide

theorem renderCenti_ne_notDecl (z : ℤ) : renderCenti z ≠ notDecl := by
  obtain ⟨c, t, hct, hc⟩ := renderCenti_head z
  rw [hct]
  intro h
  rw [show notDecl = 'n' :: gs "ot declared" from rfl] at h
  have hcn : c = 'n' := ((List.cons.injEq c t 'n' (gs "ot declared")).mp h).1
  rcases hc with rfl | ⟨d, rfl⟩
  · exact absurd hcn (by decide)
  · exact (digitChar_spec d).2.2.2.2.2.2.2 hcn

theorem formatFloat_ne_notDecl (f : ℚ) : formatFloat f ≠ notDecl :=
  renderCenti_ne_notDecl _

theorem jsonMarshal_ne (v : JValue) : jsonMarshal v ≠ [] ∧ jsonMarshal v ≠ notDecl := by
  cases v with
  | null =>
      have h : jsonMarshal .null = gs "null" := by simp [jsonMarshal]
      rw [h]
      exact ⟨by decide, by decide⟩
  | bool b =>
      cases b with
      | false =>
          have h : jsonMarshal (.bool false) = gs "false" := by simp [jsonMarshal]
          rw [h]
          exact ⟨by decide, by decide⟩
      | true =>
          have h : jsonMarshal (.bool true) = gs "true" := by simp [jsonMarshal]
          rw [h]
          exact ⟨by decide, by decide⟩
  | num x =>
      have h : jsonMarshal (.num x) = renderCenti (round (100 * x)) := by simp [jsonMarshal]
      rw [h]
      refine ⟨?_, renderCenti_ne_notDecl _⟩
      obtain ⟨c, t, hct, _⟩ := renderCenti_head (round (100 * x))
      rw [hct]
      simp
  | str s =>
      have h : jsonMarshal (.str s) = '\"' :: (s ++ ['\"']) := by simp [jsonMarshal]
      rw [h]
      refine ⟨by simp, ?_⟩
      intro he
      rw [show notDecl = 'n' :: gs "ot declared" from rfl] at he
      have := ((List.cons.injEq _ _ _ _).mp he).1
      exact absurd this (by decide)
  | arr xs =>
      have h : jsonMarshal (.arr xs) = '[' :: (marshalList xs ++ [']']) := by simp [jsonMarshal]
      rw [h]
      refine ⟨by simp, ?_⟩
      intro he
      rw [show notDecl = 'n' :: gs "ot declared" from rfl] at he
      have := ((List.cons.injEq _ _ _ _).mp he).1
      exact absurd this (by decide)
  | obj fs =>
      have h : jsonMarshal (.obj fs) = '\x7b' :: (marshalFields fs ++ ['\x7d']) := by
        simp [jsonMarshal]
      rw [h]
      refine ⟨by simp, ?_⟩
      intro he
      rw [show notDecl = 'n' :: gs "ot declared" from rfl] at he
      have := ((List.cons.injEq _ _ _ _).mp he).1
      exact absurd this (by decide)

theorem parseGoFloat_notDecl : parseGoFloat notDecl = none := by decide

theorem valueFromValue_spec (v : JValue) :
    (valueFromValue v).isSome = usableB v ∧
    ∀ out, valueFromValue v = some out → (out = notDecl ↔ v = .str notDecl) := by
  cases v with
  | null => exact ⟨rfl, by intro out h; exact absurd h (by simp [valueFromValue])⟩
  | num f =>
      refine ⟨rfl, ?_⟩
      intro out h
      have hout : out = formatFloat f := by
        simpa [valueFromValue] using h.symm
      constructor
      · intro hnd
        exact absurd (hout ▸ hnd) (formatFloat_ne_notDecl f)
      · intro hv
        exact absurd hv (by simp)
  | str s =>
      cases hp : parseGoFloat s with
      | some f =>
          have hs : ¬s.isEmpty := by
            intro hse
            rw [List.isEmpty_iff.mp hse] at hp
            exact absurd hp (by simp [parseGoFloat])
          refine ⟨?_, ?_⟩
          · show (match parseGoFloat s with
              | some f => some (formatFloat f)
              | none => if s.isEmpty then none else some s).isSome = !s.isEmpty
            rw [hp]
            simp [hs]
          · intro out h
            have hout : out = formatFloat f := by
              have : (match parseGoFloat s with
                  | some f => some (formatFloat f)
                  | none => if s.isEmpty then none else some s) = some out := h
              rw [hp] at this
              simpa using this.symm
            constructor
            · intro hnd
              exact absurd (hout ▸ hnd) (formatFloat_ne_notDecl f)
            · intro hv
              have : s = notDecl := by injection hv
              rw [this, parseGoFloat_notDecl] at hp
              cases hp
      | none =>
          by_cases hs : s.isEmpty
          · refine ⟨?_, ?_⟩
            · show (match parseGoFloat s with
                | some f => some (formatFloat f)
                | none => if s.isEmpty then none else some s).isSome = !s.isEmpty
              rw [hp]
              simp [hs]
            · intro out h
              have : (match parseGoFloat s with
                  | some f => some (formatFloat f)
                  | none => if s.isEmpty then none else some s) = some out := h
              rw [hp] at this
              simp [hs] at this
          · refine ⟨?_, ?_⟩
            · show (match parseGoFloat s with
                | some f => some (formatFloat f)
                | none => if s.isEmpty then none else some s).isSome = !s.isEmpty
              rw [hp]
              simp [hs]
            · intro out h
              have hsome : (match parseGoFloat s with
                  | some f => some (formatFloat f)
                  | none => if s.isEmpty then none else some s) = some out := h
              rw [hp] at hsome
              simp [hs] at hsome
              constructor
              · intro hnd
                exact congrArg JValue.str (hsome.trans hnd)
              · intro hv
                have : s = notDecl := by injection hv
                rw [← hsome, this]
  | bool b =>
      have hne := (jsonMarshal_ne (.bool b)).1
      have hie : (jsonMarshal (.bool b)).isEmpty = false := by
        cases hmb : jsonMarshal (.bool b) with
        | nil => exact absurd hmb hne
        | cons c t => rfl
      refine ⟨?_, ?_⟩
      · show (if (jsonMarshal (.bool b)).isEmpty then none
            else some (jsonMarshal (.bool b))).isSome = true
        rw [hie]
        rfl
      · intro out h
        have hsome : (if (jsonMarshal (.bool b)).isEmpty then none
            else some (jsonMarshal (.bool b))) = some out := h
        rw [hie] at hsome
        simp at hsome
        constructor
        · intro hnd
          exact absurd (hsome ▸ hnd) (jsonMarshal_ne (.bool b)).2
        · intro hv
          cases hv
  | arr xs =>
      have hne := (jsonMarshal_ne (.arr xs)).1
      have hie : (jsonMarshal (.arr xs)).isEmpty = false := by
        cases hmb : jsonMarshal (.arr xs) with
        | nil => exact absurd hmb hne
        | cons c t => rfl
      refine ⟨?_, ?_⟩
      · show (if (jsonMarshal (.arr xs)).isEmpty then none
            else some (jsonMarshal (.arr xs))).isSome = true
        rw [hie]
        rfl
      · intro out h
        have hsome : (if (jsonMarshal (.arr xs)).isEmpty then none
            else some (jsonMarshal (.arr xs))) = some out := h
        rw [hie] at hsome
        simp at hsome
        constructor
        · intro hnd
          exact absurd (hsome ▸ hnd) (jsonMarshal_ne (.arr xs)).2
        · intro hv
          cases hv
  | obj fs =>
      have hne := (jsonMarshal_ne (.obj fs)).1
      have hie : (jsonMarshal (.obj fs)).isEmpty = false := by
        cases hmb : jsonMarshal (.obj fs) with
        | nil => exact absurd hmb hne
        | cons c t => rfl
      refine ⟨?_, ?_⟩
      · show (if (jsonMarshal (.obj fs)).isEmpty then none
            else some (jsonMarshal (.obj fs))).isSome = true
        rw [hie]
        rfl
      · intro out h
        have hsome : (if (jsonMarshal (.obj fs)).isEmpty then none
            else some (jsonMarshal (.obj fs))) = some out := h
        rw [hie] at hsome
        simp at hsome
        constructor
        · intro hnd
          exact absurd (hsome ▸ hnd) (jsonMarshal_ne (.obj fs)).2
        · intro hv
          cases hv

/-- C5 (amended): valueFromMap returns the "not declared" sentinel iff either
no candidate key maps to a present, non-null, non-empty usable value, or the
first such usable value is itself the literal non-numeric string
"not declared", which is returned verbatim and is indistinguishable from the
sentinel. -/
theorem valueFromMap_not_declared_iff :
    ∀ (m : JObj) (keys : List GoStr),
      valueFromMap m keys = notDecl ↔
        (firstUsable m keys = none ∨ firstUsable m keys = some (.str notDecl)) := by
  intro m keys
  induction keys with
  | nil => simp [valueFromMap, firstUsable]
  | cons k rest ih =>
      cases hk : goLookup m k with
      | none =>
          have hL : valueFromMap m (k :: rest) = valueFromMap m rest := by
            simp only [valueFromMap]
            rw [hk]
          have hR : firstUsable m (k :: rest) = firstUsable m rest := by
            simp only [firstUsable, List.findSome?_cons]
            rw [hk]
          rw [hL, hR]
          exact ih
      | some v =>
          cases hb : valueFromValue v with
          | none =>
              have husable : usableB v = false := by
                rw [← (valueFromValue_spec v).1, hb]
                rfl
              have hL : valueFromMap m (k :: rest) = valueFromMap m rest := by
                simp only [valueFromMap]
                rw [hk]
                show (match valueFromValue v with
                  | some out => out
                  | none => valueFromMap m rest) = valueFromMap m rest
                rw [hb]
              have hR : firstUsable m (k :: rest) = firstUsable m rest := by
                simp only [firstUsable, List.findSome?_cons]
                rw [hk]
                simp [husable]
              rw [hL, hR]
              exact ih
          | some out =>
              have husable : usableB v = true := by
                rw [← (valueFromValue_spec v).1, hb]
                rfl
              have hL : valueFromMap m (k :: rest) = out := by
                simp only [valueFromMap]
                rw [hk]
                show (match valueFromValue v with
                  | some out => out
                  | none => valueFromMap m rest) = out
                rw [hb]
              have hR : firstUsable m (k :: rest) = some v := by
                simp only [firstUsable, List.findSome?_cons]
                rw [hk]
                simp [husable]
              rw [hL, hR]
              have hiff := (valueFromValue_spec v).2 out hb
              constructor
              · intro hnd
                exact Or.inr (by rw [hiff.mp hnd])
              · intro hor
                rcases hor with hor | hor
                · cases hor
                · exact hiff.mpr (by injection hor)

/-- C5 counterexample: the group maps the key NP_Q to the literal string
"not declared".  That key yields a present, non-null, non-empty usable value,
yet valueFromMap returns the sentinel (the verbatim string pass-through),
refuting the claimed "sentinel iff no candidate key maps to a usable value". -/
theorem valueFromMap_verbatim_sentinel_collision :
    valueFromMap [(gs "NP_Q", .str notDecl)] [gs "NP_Q"] = notDecl ∧
    goLookup [(gs "NP_Q", .str notDecl)] (gs "NP_Q") = some (.str notDecl) ∧
    usableB (.str notDecl) = true :=
  ⟨rfl, rfl, rfl⟩

/-- Witness for C5 applying the amended equivalence at a concrete input. -/
theorem valueFromMap_not_declared_iff_witness :
    firstUsable ([] : JObj) [] = none ∨ firstUsable ([] : JObj) [] = some (.str notDecl) :=
  (valueFromMap_not_declared_iff [] []).mp rfl

theorem asObj_eq_some {v : JValue} {m : JObj} : asObj v = some m ↔ v = .obj m := by
  cases v <;> simp [asObj]

theorem cbFoldl_some (targets : List GoStr) :
    ∀ (l : JObj) (s : ℤ) (m₀ : JObj), s = (dumpScore m₀ targets : ℤ) →
      ∃ m : JObj,
        l.foldl (cbStep targets) (s, some m₀) = ((dumpScore m targets : ℤ), some m) ∧
        (m = m₀ ∨ ∃ kv ∈ l, asObj kv.2 = some m) ∧
        dumpScore m₀ targets ≤ dumpScore m targets ∧
        (∀ kv ∈ l, ∀ m', asObj kv.2 = some m' →
          dumpScore m' targets ≤ dumpScore m targets) := by
  intro l
  induction l with
  | nil =>
      intro s m₀ hs
      exact ⟨m₀, by rw [hs]; rfl, Or.inl rfl, le_rfl, by intro kv h; cases h⟩
  | cons kv t ih =>
      intro s m₀ hs
      rw [List.foldl_cons]
      cases ha : asObj kv.2 with
      | none =>
          have hstep : cbStep targets (s, some m₀) kv = (s, some m₀) := by
            simp [cbStep, ha]
          rw [hstep]
          obtain ⟨m, hfold, hmem, hle, hall⟩ := ih s m₀ hs
          refine ⟨m, hfold, ?_, hle, ?_⟩
          · rcases hmem with h | ⟨kv', hkv', h⟩
            · exact Or.inl h
            · exact Or.inr ⟨kv', List.mem_cons_of_mem kv hkv', h⟩
          · intro kv' hkv' m' hm'
            rcases List.mem_cons.mp hkv' with rfl | hkv'
            · rw [ha] at hm'
              cases hm'
            · exact hall kv' hkv' m' hm'
      | some m₁ =>
          by_cases hcmp : (dumpScore m₁ targets : ℤ) > s
          · have hstep : cbStep targets (s, some m₀) kv =
                ((dumpScore m₁ targets : ℤ), some m₁) := by
              simp [cbStep, ha, hcmp]
            rw [hstep]
            obtain ⟨m, hfold, hmem, hle, hall⟩ := ih (dumpScore m₁ targets : ℤ) m₁ rfl
            refine ⟨m, hfold, ?_, ?_, ?_⟩
            · rcases hmem with rfl | ⟨kv', hkv', h⟩
              · exact Or.inr ⟨kv, List.mem_cons_self kv t, ha⟩
              · exact Or.inr ⟨kv', List.mem_cons_of_mem kv hkv', h⟩
            · have h1 : dumpScore m₀ targets ≤ dumpScore m₁ targets := by
                rw [hs] at hcmp
                exact_mod_cast le_of_lt hcmp
              exact le_trans h1 hle
            · intro kv' hkv' m' hm'
              rcases List.mem_cons.mp hkv' with rfl | hkv'
              · rw [ha] at hm'
                injection hm' with hm'
                subst hm'
                exact hle
              · exact hall kv' hkv' m' hm'
          · have hstep : cbStep targets (s, some m₀) kv = (s, some m₀) := by
              simp [cbStep, ha, hcmp]
            rw [hstep]
            obtain ⟨m, hfold, hmem, hle, hall⟩ := ih s m₀ hs
            refine ⟨m, hfold, ?_, hle, ?_⟩
            · rcases hmem with h | ⟨kv', hkv', h⟩
              · exact Or.inl h
              · exact Or.inr ⟨kv', List.mem_cons_of_mem kv hkv', h⟩
            · intro kv' hkv' m' hm'
              rcases List.mem_cons.mp hkv' with rfl | hkv'
              · rw [ha] at hm'
                injection hm' with hm'
                subst hm'
                have h2 : (dumpScore m₁ targets : ℤ) ≤ (dumpScore m₀ targets : ℤ) := by
                  rw [← hs]
                  exact not_lt.mp hcmp
                have h3 : dumpScore m₁ targets ≤ dumpScore m₀ targets := by exact_mod_cast h2
                exact le_trans h3 hle
              · exact hall kv' hkv' m' hm'

theorem cbFoldl_none (targets : List GoStr) :
    ∀ l : JObj,
      ((∀ kv ∈ l, asObj kv.2 = none) ∧
        l.foldl (cbStep targets) (-1, none) = (-1, none)) ∨
      (∃ m : JObj, (l.foldl (cbStep targets) (-1, none)).2 = some m ∧
        (∃ kv ∈ l, asObj kv.2 = some m) ∧
        (∀ kv ∈ l, ∀ m', asObj kv.2 = some m' →
          dumpScore m' targets ≤ dumpScore m targets)) := by
  intro l
  induction l with
  | nil => exact Or.inl ⟨(by intro kv h; cases h), rfl⟩
  | cons kv t ih =>
      cases ha : asObj kv.2 with
      | none =>
          have hstep : cbStep targets (-1, none) kv = (-1, none) := by
            simp [cbStep, ha]
          rcases ih with ⟨hall, hfold⟩ | ⟨m, hm, hmem, hall⟩
          · left
            refine ⟨?_, ?_⟩
            · intro kv' hkv'
              rcases List.mem_cons.mp hkv' with rfl | h
              · exact ha
              · exact hall kv' h
            · rw [List.foldl_cons, hstep]
              exact hfold
          · right
            refine ⟨m, ?_, ?_, ?_⟩
            · rw [List.foldl_cons, hstep]
              exact hm
            · obtain ⟨kv', hkv', h⟩ := hmem
              exact ⟨kv', List.mem_cons_of_mem kv hkv', h⟩
            · intro kv' hkv' m' hm'
              rcases List.mem_cons.mp hkv' with rfl | h
              · rw [ha] at hm'
                cases hm'
              · exact hall kv' h m' hm'
      | some m₁ =>
          right
          have hgt : (dumpScore m₁ targets : ℤ) > (-1 : ℤ) := by
            have := Int.ofNat_nonneg (dumpScore m₁ targets)
            omega
          have hstep : cbStep targets (-1, none) kv =
              ((dumpScore m₁ targets : ℤ), some m₁) := by
            simp [cbStep, ha, hgt]
          obtain ⟨m, hfold, hmem, hle, hall⟩ :=
            cbFoldl_some targets t (dumpScore m₁ targets : ℤ) m₁ rfl
          refine ⟨m, ?_, ?_, ?_⟩
          · rw [List.foldl_cons, hstep, hfold]
          · rcases hmem with rfl | ⟨kv', hkv', h⟩
            · exact ⟨kv, List.mem_cons_self kv t, ha⟩
            · exact ⟨kv', List.mem_cons_of_mem kv hkv', h⟩
          · intro kv' hkv' m' hm'
            rcases List.mem_cons.mp hkv' with rfl | h
            · rw [ha] at hm'
              injection hm' with e
              subst e
              exact hle
            · exact hall kv' h m' hm'

/-- C2 (amended): chooseBestDump returns none exactly when no candidate entry
is object-valued (in particular for the empty mapping); because the initial
best score is -1 and every group scores at least 0, a mapping whose groups all
score 0 still yields an object-valued group rather than none; and a returned
group has maximal score, so a score-0 group is never returned while some
group scores positively. -/
theorem chooseBestDump_spec :
    ∀ (qd : JObj) (ord : List GoStr),
      (chooseBestDump qd ord = none ↔ ∀ kv ∈ qd, asObj kv.2 = none) ∧
      (∀ m, chooseBestDump qd ord = some m → ∀ k' m', (k', JValue.obj m') ∈ qd →
        dumpScore m' (ord.map normalizeKey) ≤ dumpScore m (ord.map normalizeKey)) := by
  intro qd ord
  rcases cbFoldl_none (ord.map normalizeKey) qd with ⟨hall, hfold⟩ | ⟨m, hm, hmem, hall⟩
  · have hnone : chooseBestDump qd ord = none := by
      unfold chooseBestDump
      rw [hfold]
    refine ⟨⟨fun _ => hall, fun _ => hnone⟩, ?_⟩
    intro m hsome
    rw [hnone] at hsome
    cases hsome
  · have hsome : chooseBestDump qd ord = some m := hm
    refine ⟨⟨?_, ?_⟩, ?_⟩
    · intro h
      rw [hsome] at h
      cases h
    · intro h
      obtain ⟨kv, hkv, hobj⟩ := hmem
      rw [h kv hkv] at hobj
      cases hobj
    · intro m'' h k' m' hmem'
      rw [hsome] at h
      injection h with h
      subst h
      exact hall (k', .obj m') hmem' m' (asObj_eq_some.mpr rfl)

/-- C2 counterexample: a single candidate group that scores 0 against the
expected periods (its inner map is empty) is still returned, because its
score 0 beats the initial sentinel -1; the claim said none is returned when
every group scores 0. -/
theorem chooseBestDump_all_zero_returns_group :
    chooseBestDump [(gs "g", .obj [])] [gs "Q1"] = some [] ∧
    dumpScore [] ([gs "Q1"].map normalizeKey) = 0 :=
  ⟨rfl, rfl⟩

/-- Witness for C2 applying the amended characterization at concrete inputs. -/
theorem chooseBestDump_spec_witness :
    chooseBestDump ([] : JObj) [] = none :=
  (chooseBestDump_spec [] []).1.mpr (by intro kv h; cases h)

/-- C3 (amended): the score chooseBestDump computes for a group is the number
of the group's KEYS that have a normalized match among the expected periods
(each key counted at most once; several keys may match the same period), and
the selected group is an object-valued entry of the mapping with maximal
score among all object-valued entries (first seen wins ties). -/
theorem chooseBestDump_selects_max :
    ∀ (qd : JObj) (ord : List GoStr) (m : JObj), chooseBestDump qd ord = some m →
      (∃ k, (k, JValue.obj m) ∈ qd) ∧
      dumpScore m (ord.map normalizeKey) =
        ((m.map (fun kv => normalizeKey kv.1)).filter
          (fun nk => (ord.map normalizeKey).any (fun t => normMatch t nk))).length ∧
      (∀ k' m', (k', JValue.obj m') ∈ qd →
        dumpScore m' (ord.map normalizeKey) ≤ dumpScore m (ord.map normalizeKey)) := by
  intro qd ord m h
  rcases cbFoldl_none (ord.map normalizeKey) qd with ⟨_, hfold⟩ | ⟨m₁, hm, hmem, hall⟩
  · unfold chooseBestDump at h
    rw [hfold] at h
    cases h
  · unfold chooseBestDump at h
    rw [hm] at h
    injection h with h
    subst h
    refine ⟨?_, ?_, ?_⟩
    · obtain ⟨kv, hkv, hobj⟩ := hmem
      refine ⟨kv.1, ?_⟩
      have hkveq : kv = (kv.1, JValue.obj m₁) := by
        have h2 := asObj_eq_some.mp hobj
        exact Prod.ext rfl h2
      rw [← hkveq]
      exact hkv
    · rw [dumpScore, List.countP_eq_length_filter, List.filter_map, List.length_map]
      congr 1
    · intro k' m' hmem'
      exact hall (k', .obj m') hmem' m' (asObj_eq_some.mpr rfl)

/-- C3 counterexample: with a single expected period Q1 and a group whose two
keys Q1FY24 and Q1FY23 each contain it after normalization, the code's score
is 2 (it counts matching group keys), while the count of expected periods
with a match is 1; the claimed equality of score with the period count fails. -/
theorem dumpScore_counts_keys_not_periods :
    dumpScore [(gs "Q1FY24", .obj []), (gs "Q1FY23", .obj [])]
      ([gs "Q1"].map normalizeKey) = 2 ∧
    specPeriodScore [gs "Q1"] [(gs "Q1FY24", .obj []), (gs "Q1FY23", .obj [])] = 1 ∧
    ([gs "Q1"] : List GoStr).length = 1 :=
  ⟨rfl, rfl, rfl⟩

/-- Witness for C3 applying the selection theorem at concrete inputs. -/
theorem chooseBestDump_selects_max_witness :
    (∃ k, (k, JValue.obj [(gs "Q1", JValue.null)]) ∈
        ([(gs "a", JValue.obj [(gs "Q1", JValue.null)]), (gs "b", JValue.obj [])] : JObj)) ∧
    dumpScore [(gs "Q1", JValue.null)] ([gs "Q1"].map normalizeKey) =
      ((([(gs "Q1", JValue.null)] : JObj).map (fun kv => normalizeKey kv.1)).filter
        (fun nk => ([gs "Q1"].map normalizeKey).any (fun t => normMatch t nk))).length ∧
    (∀ k' m', (k', JValue.obj m') ∈
        ([(gs "a", JValue.obj [(gs "Q1", JValue.null)]), (gs "b", JValue.obj [])] : JObj) →
      dumpScore m' ([gs "Q1"].map normalizeKey) ≤
        dumpScore [(gs "Q1", JValue.null)] ([gs "Q1"].map normalizeKey)) :=
  chooseBestDump_selects_max
    [(gs "a", JValue.obj [(gs "Q1", JValue.null)]), (gs "b", JValue.obj [])]
    [gs "Q1"] [(gs "Q1", JValue.null)] rfl

theorem containsStr_nil (hay : GoStr) : containsStr hay [] = true := by
  cases hay <;> rfl

/-- C10: when the wanted label has no alphanumeric characters (normalizes to
the empty string), findQuarterKey on a non-empty group always returns one of
the group's keys, because the containment pass trivially matches every key;
and in chooseBestDump's scoring the same label makes every key of every group
match, so each group's score equals its key count. -/
theorem findQuarterKey_empty_normalization :
    ∀ (d : JObj) (q : GoStr), d ≠ [] → normalizeKey q = [] →
      (∃ kv ∈ d, findQuarterKey d q = kv.1) ∧
      (∀ (ord : List GoStr) (m : JObj), q ∈ ord →
        dumpScore m (ord.map normalizeKey) = m.length) := by
  intro d q hd hq
  constructor
  · cases d with
    | nil => exact absurd rfl hd
    | cons kv₀ t =>
        unfold findQuarterKey
        cases hf : (kv₀ :: t).find? (fun kv => normalizeKey q == normalizeKey kv.1) with
        | some kv =>
            exact ⟨kv, List.mem_of_find?_eq_some hf, rfl⟩
        | none =>
            have hp : (containsStr (normalizeKey kv₀.1) (normalizeKey q) ||
                containsStr (normalizeKey q) (normalizeKey kv₀.1)) = true := by
              rw [hq]
              simp [containsStr_nil]
            have hf2 : (kv₀ :: t).find? (fun kv =>
                containsStr (normalizeKey kv.1) (normalizeKey q) ||
                containsStr (normalizeKey q) (normalizeKey kv.1)) = some kv₀ :=
              List.find?_cons_of_pos t hp
            refine ⟨kv₀, List.mem_cons_self kv₀ t, ?_⟩
            rw [hf2]
  · intro ord m hqo
    have hmem : ([] : GoStr) ∈ ord.map normalizeKey := by
      rw [← hq]
      exact List.mem_map_of_mem normalizeKey hqo
    rw [dumpScore]
    rw [List.countP_eq_length]
    intro kv _
    rw [List.any_eq_true]
    refine ⟨[], hmem, ?_⟩
    simp [normMatch, containsStr_nil]

/-- Witness for C10 applying the theorem at concrete inputs. -/
theorem findQuarterKey_empty_normalization_witness :
    dumpScore [(gs "k", JValue.null)] ([gs "##"].map normalizeKey) = 1 := by
  have h := (findQuarterKey_empty_normalization [(gs "a", JValue.null)] (gs "##")
    (by simp) rfl).2 [gs "##"] [(gs "k", JValue.null)] (List.mem_cons_self _ _)
  exact h

theorem quarterValue_notDecl : quarterValueToFloat64 notDecl = none := rfl

/-- C1 (amended): whenever the fundamentals payload decodes as a JSON object
(root? = some root), the CompanyResult has exactly 4 entries in each of
Quarters, Revenue, NetProfit, RevenueNums and NetProfitNums, and every slot
at an index at or beyond the declared period count holds "not declared" in
the display arrays and NaN in the numeric arrays.  (When the payload does not
decode as an object the early return yields empty arrays instead; see the
counterexample.) -/
theorem parseFundamentals_pads_to_four :
    ∀ (name : GoStr) (root : JObj),
      ((ParseCompanyFundamentals name (some root)).Quarters.length = 4 ∧
        (ParseCompanyFundamentals name (some root)).Revenue.length = 4 ∧
        (ParseCompanyFundamentals name (some root)).NetProfit.length = 4 ∧
        (ParseCompanyFundamentals name (some root)).RevenueNums.length = 4 ∧
        (ParseCompanyFundamentals name (some root)).NetProfitNums.length = 4) ∧
      (∀ i, i < 4 → (quarterlyOrderOf root).length ≤ i →
        (ParseCompanyFundamentals name (some root)).Revenue[i]? = some notDecl ∧
        (ParseCompanyFundamentals name (some root)).NetProfit[i]? = some notDecl ∧
        (ParseCompanyFundamentals name (some root)).RevenueNums[i]? = some none ∧
        (ParseCompanyFundamentals name (some root)).NetProfitNums[i]? = some none) := by
  intro name root
  have hQ : (ParseCompanyFundamentals name (some root)).Quarters =
      (quarterlyOrderOf root).take 4 ++ List.replicate (padCount root) [] := rfl
  have hR : (ParseCompanyFundamentals name (some root)).Revenue =
      (resolvedPairs root).map Prod.fst ++ List.replicate (padCount root) notDecl := rfl
  have hN : (ParseCompanyFundamentals name (some root)).NetProfit =
      (resolvedPairs root).map Prod.snd ++ List.replicate (padCount root) notDecl := rfl
  have hRN : (ParseCompanyFundamentals name (some root)).RevenueNums =
      (ParseCompanyFundamentals name (some root)).Revenue.map quarterValueToFloat64 := rfl
  have hNN : (ParseCompanyFundamentals name (some root)).NetProfitNums =
      (ParseCompanyFundamentals name (some root)).NetProfit.map quarterValueToFloat64 := rfl
  have hLlen : ((quarterlyOrderOf root).take 4).length = min 4 (quarterlyOrderOf root).length :=
    List.length_take 4 (quarterlyOrderOf root)
  have hple : ((quarterlyOrderOf root).take 4).length ≤ 4 := by
    rw [hLlen]
    exact min_le_left _ _
  have hpairs : ((resolvedPairs root).map Prod.fst).length =
      ((quarterlyOrderOf root).take 4).length := by
    rw [List.length_map, resolvedPairs, List.length_map]
  have hpairs2 : ((resolvedPairs root).map Prod.snd).length =
      ((quarterlyOrderOf root).take 4).length := by
    rw [List.length_map, resolvedPairs, List.length_map]
  have hRlen : (ParseCompanyFundamentals name (some root)).Revenue.length = 4 := by
    rw [hR, List.length_append, List.length_replicate, hpairs, padCount]
    omega
  have hNlen : (ParseCompanyFundamentals name (some root)).NetProfit.length = 4 := by
    rw [hN, List.length_append, List.length_replicate, hpairs2, padCount]
    omega
  constructor
  · refine ⟨?_, hRlen, hNlen, ?_, ?_⟩
    · rw [hQ, List.length_append, List.length_replicate, padCount]
      omega
    · rw [hRN, List.length_map, hRlen]
    · rw [hNN, List.length_map, hNlen]
  · intro i hi4 hqi
    have hLle : ((quarterlyOrderOf root).take 4).length ≤ i := by
      rw [hLlen]
      omega
    have hrepl : i - ((quarterlyOrderOf root).take 4).length < padCount root := by
      rw [padCount]
      omega
    have hRv : (ParseCompanyFundamentals name (some root)).Revenue[i]? = some notDecl := by
      rw [hR, List.getElem?_append_right (by rw [hpairs]; exact hLle)]
      rw [hpairs, List.getElem?_replicate, if_pos hrepl]
    have hNv : (ParseCompanyFundamentals name (some root)).NetProfit[i]? = some notDecl := by
      rw [hN, List.getElem?_append_right (by rw [hpairs2]; exact hLle)]
      rw [hpairs2, List.getElem?_replicate, if_pos hrepl]
    refine ⟨hRv, hNv, ?_, ?_⟩
    · rw [hRN, List.getElem?_map, hRv]
      rfl
    · rw [hNN, List.getElem?_map, hNv]
      rfl

/-- C1 counterexample: the payload "hello" passes the fetch stage (non-empty
body, the missing JSON token is only logged) but json.Unmarshal fails, and
ParseCompanyFundamentals returns early with nil slices: the CompanyResult
placed in the output has 0 entries per array, not 4. -/
theorem parseFundamentals_empty_on_bad_json :
    FetchFundamentalsJSON (gs "hello") = Except.ok (gs "hello") ∧
    (ParseCompanyFundamentals (gs "ACME") none).Quarters.length = 0 ∧
    (ParseCompanyFundamentals (gs "ACME") none).Revenue.length = 0 ∧
    (ParseCompanyFundamentals (gs "ACME") none).RevenueNums.length = 0 :=
  ⟨rfl, rfl, rfl, rfl⟩

/-- Witness for C1 applying the padding theorem at a concrete input. -/
theorem parseFundamentals_pads_to_four_witness :
    (ParseCompanyFundamentals (gs "X") (some [])).Quarters.length = 4 ∧
    (ParseCompanyFundamentals (gs "X") (some [])).Revenue[0]? = some notDecl :=
  ⟨(parseFundamentals_pads_to_four (gs "X") []).1.1,
    ((parseFundamentals_pads_to_four (gs "X") []).2 0 (by norm_num) (by norm_num
      [quarterlyOrderOf, bodyOf, goLookup])).1⟩

/-- C6 (amended): once the transport succeeds, FetchFundamentalsJSON fails
exactly when the trimmed body is empty; a non-empty body is returned
(trimmed) for extraction even when it does not begin with a JSON
object/array token, which is only logged as a data-quality signal. -/
theorem fetchFundamentals_fails_only_on_empty :
    ∀ b : GoStr,
      ((∃ e, FetchFundamentalsJSON b = Except.error e) ↔ trimSpace b = []) ∧
      (trimSpace b ≠ [] → FetchFundamentalsJSON b = Except.ok (trimSpace b)) := by
  intro b
  by_cases h : (trimSpace b).isEmpty
  · have he : trimSpace b = [] := List.isEmpty_iff.mp h
    constructor
    · constructor
      · intro _
        exact he
      · intro _
        exact ⟨gs "empty fundamentals response", by rw [FetchFundamentalsJSON, if_pos h]⟩
    · intro hne
      exact absurd he hne
  · have he : trimSpace b ≠ [] := fun hc => h (List.isEmpty_iff.mpr hc)
    constructor
    · constructor
      · intro ⟨e, hee⟩
        rw [FetchFundamentalsJSON, if_neg h] at hee
        cases hee
      · intro hc
        exact absurd hc he
    · intro _
      rw [FetchFundamentalsJSON, if_neg h]

/-- C6 counterexample: the body "oops" is non-empty but does not begin with
a JSON object/array token, yet the fetch succeeds and returns it, refuting
the claimed failure condition. -/
theorem fetchFundamentals_accepts_non_json :
    FetchFundamentalsJSON (gs "oops") = Except.ok (gs "oops") ∧
    (gs "oops").head? = some 'o' ∧ 'o' ≠ '\x7b' ∧ 'o' ≠ '[' :=
  ⟨rfl, rfl, by decide, by decide⟩

/-- Witness for C6 applying the failure characterization at a concrete input. -/
theorem fetchFundamentals_fails_only_on_empty_witness :
    ∃ e, FetchFundamentalsJSON [] = Except.error e :=
  (fetchFundamentals_fails_only_on_empty []).1.mpr rfl

theorem quarterValue_formatFloat_int (a : ℤ) :
    quarterValueToFloat64 (formatFloat (a : ℚ)) = some ((a : ℚ)) := by
  show quarterValueToFloat64 (renderCenti (round (100 * (a : ℚ)))) = some ((a : ℚ))
  have h : (100 : ℚ) * (a : ℚ) = ((100 * a : ℤ) : ℚ) := by push_cast; ring
  rw [h, round_intCast, quarterValue_renderCenti]
  congr 1
  push_cast
  exact mul_div_cancel_left₀ _ (by norm_num : (100 : ℚ) ≠ 0)

theorem acme_revenue (a b : ℤ) :
    (ParseCompanyFundamentals (gs "ACME") (some (acmeRootWith a b))).Revenue =
      [formatFloat (a : ℚ), formatFloat (b : ℚ), notDecl, notDecl] := rfl

theorem acme_nums (a b : ℤ) :
    (ParseCompanyFundamentals (gs "ACME") (some (acmeRootWith a b))).RevenueNums =
      [some (a : ℚ), some (b : ℚ), none, none] := by
  have h0 : (ParseCompanyFundamentals (gs "ACME") (some (acmeRootWith a b))).RevenueNums =
      (ParseCompanyFundamentals (gs "ACME")
        (some (acmeRootWith a b))).Revenue.map quarterValueToFloat64 := rfl
  rw [h0, acme_revenue]
  simp only [List.map_cons, List.map_nil, quarterValue_formatFloat_int, quarterValue_notDecl]

theorem acme_revPct (a b : ℤ) :
    (rowStats (ParseCompanyFundamentals (gs "ACME") (some (acmeRootWith a b)))).revPct =
      pctOrNaN (some (a : ℚ)) (some (b : ℚ)) := by
  have h : (rowStats (ParseCompanyFundamentals (gs "ACME") (some (acmeRootWith a b)))).revPct =
      pctOrNaN
        (((ParseCompanyFundamentals (gs "ACME")
          (some (acmeRootWith a b))).RevenueNums[0]?).getD none)
        (((ParseCompanyFundamentals (gs "ACME")
          (some (acmeRootWith a b))).RevenueNums[1]?).getD none) := rfl
  rw [h, acme_nums]
  rfl

theorem acme_avg3 (a b : ℤ) :
    (rowStats (ParseCompanyFundamentals (gs "ACME") (some (acmeRootWith a b)))).avg3RevPct =
      pctOrNaN (some (((a : ℚ) + (b : ℚ)) / 2)) (some (b : ℚ)) := by
  have h : (rowStats (ParseCompanyFundamentals (gs "ACME")
      (some (acmeRootWith a b)))).avg3RevPct =
      pctOrNaN
        (if 3 ≤ (ParseCompanyFundamentals (gs "ACME")
            (some (acmeRootWith a b))).RevenueNums.length then
          avgFloats ((ParseCompanyFundamentals (gs "ACME")
            (some (acmeRootWith a b))).RevenueNums.take 3)
        else none)
        (if 4 ≤ (ParseCompanyFundamentals (gs "ACME")
            (some (acmeRootWith a b))).RevenueNums.length then
          avgFloats (((ParseCompanyFundamentals (gs "ACME")
            (some (acmeRootWith a b))).RevenueNums.drop 1).take 3)
        else none) := rfl
  rw [h, acme_nums]
  have h1 : avgFloats (([some (a : ℚ), some (b : ℚ), none, none] : List GoFloat).take 3) =
      some (((a : ℚ) + (b : ℚ)) / 2) := by
    show avgFloats [some (a : ℚ), some (b : ℚ), none] = _
    simp only [avgFloats, List.filterMap_cons, id]
    norm_num
  have h2 : avgFloats ((([some (a : ℚ), some (b : ℚ), none, none] : List GoFloat).drop 1).take 3) =
      some ((b : ℚ)) := by
    show avgFloats [some (b : ℚ), none, none] = _
    simp only [avgFloats, List.filterMap_cons, id]
    norm_num
  rw [show (([some (a : ℚ), some (b : ℚ), none, none] : List GoFloat)).length = 4 from rfl,
    if_pos (by norm_num), if_pos (by norm_num), h1, h2]

/-- C4 (amended): for the ACME entity with declared periods Q1..Q4 and data
only for Q1, Q2 (values a, b), the record keeps all four declared labels in
Quarters (not ["Q1","Q2","",""]); revenue is [a, b, "not declared",
"not declared"] with numeric slots [a, b, NaN, NaN]; the latest percent
change is computed from a and b; and the average-of-3 change is NOT NaN in
general: avgFloats ignores NaN, so it compares mean(a,b) against b. -/
theorem acme_two_period_scenario :
    ∀ a b : ℤ,
      (ParseCompanyFundamentals (gs "ACME") (some (acmeRootWith a b))).Quarters =
        [gs "Q1", gs "Q2", gs "Q3", gs "Q4"] ∧
      (ParseCompanyFundamentals (gs "ACME") (some (acmeRootWith a b))).Revenue =
        [formatFloat (a : ℚ), formatFloat (b : ℚ), notDecl, notDecl] ∧
      (ParseCompanyFundamentals (gs "ACME") (some (acmeRootWith a b))).RevenueNums =
        [some (a : ℚ), some (b : ℚ), none, none] ∧
      (rowStats (ParseCompanyFundamentals (gs "ACME") (some (acmeRootWith a b)))).revPct =
        pctOrNaN (some (a : ℚ)) (some (b : ℚ)) ∧
      (rowStats (ParseCompanyFundamentals (gs "ACME") (some (acmeRootWith a b)))).avg3RevPct =
        pctOrNaN (some (((a : ℚ) + (b : ℚ)) / 2)) (some (b : ℚ)) :=
  fun a b => ⟨rfl, acme_revenue a b, acme_nums a b, acme_revPct a b, acme_avg3 a b⟩

/-- C4 counterexample: with a = 110 and b = 100 the resolved record keeps
"Q3" in slot 2 of the period array (the claim said ""), and the average-of-3
revenue change is 5 percent, not NaN (the claim said NaN for insufficient
periods). -/
theorem acme_scenario_quarters_and_avg3 :
    (ParseCompanyFundamentals (gs "ACME") (some (acmeRootWith 110 100))).Quarters[2]? =
      some (gs "Q3") ∧
    gs "Q3" ≠ ([] : GoStr) ∧
    (rowStats (ParseCompanyFundamentals (gs "ACME")
      (some (acmeRootWith 110 100)))).avg3RevPct = some 5 := by
  refine ⟨rfl, by decide, ?_⟩
  have h := acme_avg3 110 100
  have hcast : ((110 : ℤ) : ℚ) = 110 := by norm_num
  have hcast2 : ((100 : ℤ) : ℚ) = 100 := by norm_num
  rw [hcast, hcast2] at h
  rw [h]
  norm_num [pctOrNaN]

theorem poolStep_perm {limit : ℕ} {s s' : PoolState} (h : PoolStep limit s s') :
    (s'.pending ++ s'.running ++ s'.collected).Perm
      (s.pending ++ s.running ++ s.collected) := by
  cases h with
  | acquire t rest running collected hlt =>
      show (rest ++ (t :: running) ++ collected).Perm ((t :: rest) ++ running ++ collected)
      refine List.Perm.append_right collected ?_
      show (rest ++ t :: running).Perm (t :: (rest ++ running))
      exact List.perm_middle
  | finish pending r₁ r₂ collected t =>
      show (pending ++ (r₁ ++ r₂) ++ (t :: collected)).Perm
        (pending ++ (r₁ ++ t :: r₂) ++ collected)
      simp only [List.append_assoc, List.cons_append]
      exact List.Perm.append_left pending (List.Perm.append_left r₁ List.perm_middle)

theorem poolReachable_perm {limit : ℕ} {tasks : List TaskOutcome} {s : PoolState}
    (h : Relation.ReflTransGen (PoolStep limit) (initPool tasks) s) :
    (s.pending ++ s.running ++ s.collected).Perm tasks := by
  induction h with
  | refl => simp [initPool]
  | tail _ hstep ih => exact (poolStep_perm hstep).trans ih

theorem gather_add_err (l : List TaskOutcome) :
    (gatherResults l).length + errCount l = l.length := by
  induction l with
  | nil => rfl
  | cons t ts ih =>
      cases t with
      | ok a =>
          have h1 : gatherResults (Except.ok a :: ts) = a :: gatherResults ts := rfl
          have h2 : errCount (Except.ok a :: ts) = errCount ts := by
            simp [errCount, List.countP_cons, Except.toOption]
          rw [h1, h2]
          simp only [List.length_cons]
          omega
      | error e =>
          have h1 : gatherResults (Except.error e :: ts) = gatherResults ts := rfl
          have h2 : errCount (Except.error e :: ts) = errCount ts + 1 := by
            simp [errCount, List.countP_cons, Except.toOption]
          rw [h1, h2]
          simp only [List.length_cons]
          omega

/-- C7: the bounded-semaphore orchestrator of main.go, modelled as a
transition system over predetermined task outcomes.  For any positive
concurrency limit and any reachable state: a non-final state always has an
enabled transition (no deadlock), every transition strictly decreases a
measure (the batch completes), and in any final state the gathered output
has exactly N - K results for N tasks of which K fail, each failure excluded
without affecting the others. -/
theorem pool_completes_with_n_minus_k_results :
    ∀ (limit : ℕ) (tasks : List TaskOutcome) (s : PoolState),
      1 ≤ limit →
      Relation.ReflTransGen (PoolStep limit) (initPool tasks) s →
      ((¬PoolFinal s → ∃ s', PoolStep limit s s') ∧
        (∀ s', PoolStep limit s s' → poolMeasure s' < poolMeasure s) ∧
        (PoolFinal s →
          (gatherResults s.collected).length = tasks.length - errCount tasks ∧
          (gatherResults s.collected).length + errCount tasks = tasks.length)) := by
  intro limit tasks s hlim hreach
  refine ⟨?_, ?_, ?_⟩
  · intro hnf
    obtain ⟨pending, running, collected⟩ := s
    cases hrun : running with
    | cons r rs =>
        exact ⟨_, PoolStep.finish pending [] rs collected r⟩
    | nil =>
        cases hpen : pending with
        | nil =>
            exact absurd (⟨hpen, hrun⟩ : PoolFinal ⟨pending, running, collected⟩) hnf
        | cons p ps =>
            exact ⟨_, PoolStep.acquire p ps [] collected (by simpa using hlim)⟩
  · intro s' hstep
    cases hstep with
    | acquire t rest running collected hlt =>
        simp [poolMeasure]
        omega
    | finish pending r₁ r₂ collected t =>
        simp [poolMeasure]
  · intro hfin
    have hperm := poolReachable_perm hreach
    rw [hfin.1, hfin.2] at hperm
    simp only [List.nil_append] at hperm
    have hgath : (gatherResults s.collected).Perm (gatherResults tasks) := by
      unfold gatherResults
      exact hperm.filterMap _
    have hlen : (gatherResults s.collected).length = (gatherResults tasks).length :=
      hgath.length_eq
    have hsum := gather_add_err tasks
    constructor
    · omega
    · omega

/-- Witness for C7: a concrete 2-task batch (one success, one injected
failure) run to completion under concurrency limit 1 yields exactly 1 result. -/
theorem pool_completes_witness :
    (gatherResults (PoolState.mk [] []
      [Except.error (gs "no trendlyne results"), Except.ok sampleResult]).collected).length =
      ([Except.ok sampleResult, Except.error (gs "no trendlyne results")] :
        List TaskOutcome).length -
        errCount [Except.ok sampleResult, Except.error (gs "no trendlyne results")] := by
  have h01 : PoolStep 1 (initPool [Except.ok sampleResult,
      Except.error (gs "no trendlyne results")])
      ⟨[Except.error (gs "no trendlyne results")], [Except.ok sampleResult], []⟩ :=
    PoolStep.acquire (Except.ok sampleResult) [Except.error (gs "no trendlyne results")] [] []
      (by norm_num)
  have h12 : PoolStep 1
      ⟨[Except.error (gs "no trendlyne results")], [Except.ok sampleResult], []⟩
      ⟨[Except.error (gs "no trendlyne results")], [], [Except.ok sampleResult]⟩ :=
    PoolStep.finish [Except.error (gs "no trendlyne results")] [] [] []
      (Except.ok sampleResult)
  have h23 : PoolStep 1
      ⟨[Except.error (gs "no trendlyne results")], [], [Except.ok sampleResult]⟩
      ⟨[], [Except.error (gs "no trendlyne results")], [Except.ok sampleResult]⟩ :=
    PoolStep.acquire (Except.error (gs "no trendlyne results")) [] [] [Except.ok sampleResult]
      (by norm_num)
  have h34 : PoolStep 1
      ⟨[], [Except.error (gs "no trendlyne results")], [Except.ok sampleResult]⟩
      ⟨[], [], [Except.error (gs "no trendlyne results"), Except.ok sampleResult]⟩ :=
    PoolStep.finish [] [] [] [Except.ok sampleResult]
      (Except.error (gs "no trendlyne results"))
  have hreach : Relation.ReflTransGen (PoolStep 1)
      (initPool [Except.ok sampleResult, Except.error (gs "no trendlyne results")])
      ⟨[], [], [Except.error (gs "no trendlyne results"), Except.ok sampleResult]⟩ :=
    Relation.ReflTransGen.tail
      (Relation.ReflTransGen.tail
        (Relation.ReflTransGen.tail
          (Relation.ReflTransGen.tail Relation.ReflTransGen.refl h01) h12) h23) h34
  exact ((pool_completes_with_n_minus_k_results 1
    [Except.ok sampleResult, Except.error (gs "no trendlyne results")]
    ⟨[], [], [Except.error (gs "no trendlyne results"), Except.ok sampleResult]⟩
    (by norm_num) hreach).2.2 ⟨rfl, rfl⟩).1
